import Mathlib

/-
  Verification of the PyBatPredictor battery analysis core (src/main.py).

  The program operates on pandas DataFrames holding battery-cell time-series
  measurements.  We embed a DataFrame as a `Table`: an ordered list of row
  labels (`index`), a flag recording whether the row index is integer-valued,
  and an ordered association list of named numeric columns.  All numbers are
  modelled exactly as rationals.

  pandas scalar access `series[k]` with an integer key `k` is label-based when
  the row index is integer-valued (raising `KeyError` when the label is
  absent) and falls back to positional access (with negative-index wraparound)
  when the index is not integer-valued, e.g. a `DatetimeIndex`.  This is the
  behaviour of `Series.__getitem__` in the pandas generation the script is
  written against, and is captured by `seriesGet` below.  Labels are assumed
  unique (the data model keys rows by timestamp).

  Fallible operations return `Except Err`, mirroring the Python exceptions
  (`KeyError`, `IndexError`, `ValueError`) that the corresponding pandas and
  numpy calls raise.
-/

/-- Error kinds raised by the embedded pandas and numpy operations. -/
inductive Err where
  | keyError
  | indexError
  | valueError
  deriving DecidableEq

/-- A pandas DataFrame: row labels, whether the row index is integer-valued,
and the named numeric columns in order. -/
structure Table where
  index : List ℚ
  intIndexed : Bool
  cols : List (String × List ℚ)
  deriving DecidableEq

/-- Wellformedness of a table: column names are distinct and every column has
exactly one value per row. -/
def Table.WF (t : Table) : Prop :=
  (t.cols.map Prod.fst).Nodup ∧ ∀ p ∈ t.cols, p.2.length = t.index.length

instance (t : Table) : Decidable t.WF := by
  unfold Table.WF; infer_instance

/-- Column access `df[name]`, returning the column's values. -/
def getCol (t : Table) (name : String) : Option (List ℚ) :=
  (t.cols.find? (fun p => decide (p.1 = name))).map Prod.snd

/-- Column access `df[name]` as a fallible operation: a missing column is a
pandas `KeyError`. -/
def colGet (t : Table) (name : String) : Except Err (List ℚ) :=
  match getCol t name with
  | some vs => .ok vs
  | none => .error .keyError

/-- Scalar access `series[k]` with an integer key, following pandas semantics:
label lookup on an integer-valued index (`KeyError` when absent), positional
access with negative wraparound otherwise. -/
def seriesGet (idx : List ℚ) (intIdx : Bool) (vals : List ℚ) (k : Int) :
    Except Err ℚ :=
  if intIdx then
    match (idx.zip vals).find? (fun p => decide (p.1 = (k : ℚ))) with
    | some p => .ok p.2
    | none => .error .keyError
  else
    let pos : Int := if k < 0 then k + vals.length else k
    if pos < 0 then .error .indexError
    else match vals.get? pos.toNat with
      | some v => .ok v
      | none => .error .indexError

/-- Scalar access `df[name][-1]` (the composition used at main.py:157 and
main.py:224). -/
def lastVal (t : Table) (name : String) : Except Err ℚ := do
  let vs ← colGet t name
  seriesGet t.index t.intIndexed vs (-1)

/-- Keep the rows selected by a boolean mask (the mask is read positionally,
as with a pandas boolean-series row filter). -/
def maskFilter : List Bool → List α → List α
  | true :: m, x :: xs => x :: maskFilter m xs
  | false :: m, _ :: xs => maskFilter m xs
  | _, _ => []

/-- Apply a row mask to a whole table: the index and every column are filtered
by the same mask. -/
def applyMask (t : Table) (mask : List Bool) : Table :=
  ⟨maskFilter mask t.index, t.intIndexed,
    t.cols.map (fun p => (p.1, maskFilter mask p.2))⟩

/-- main.py:6 `isolate_timeinterval(df, start, stop) = df[start:stop]`:
label slicing on a (sorted) time index keeps exactly the rows whose label
lies in the closed interval. -/
def isolate_timeinterval (t : Table) (start_date stop_date : ℚ) : Table :=
  applyMask t (t.index.map (fun x => decide (start_date ≤ x ∧ x ≤ stop_date)))

/-- main.py:69 `calculate_testtime(df)`:
`df["Test_Time(s)"] - df["Test_Time(s)"][0]`.  Note that the subtrahend is
the scalar access with integer key `0`, not necessarily the first row. -/
def calculate_testtime (t : Table) : Except Err (List ℚ) := do
  let ts ← colGet t "Test_Time(s)"
  let v0 ← seriesGet t.index t.intIndexed ts 0
  pure (ts.map (fun x => x - v0))

/-- Substring test: Python's `pat in s`. -/
def strContainsSub (s pat : String) : Bool :=
  (List.range (s.data.length + 1)).any
    (fun i => pat.data.isPrefixOf (s.data.drop i))

/-- main.py:85 `get_voltage_column_list(df)`: the column names containing the
substring "Aux_Voltage_", in original column order. -/
def get_voltage_column_list (t : Table) : List String :=
  (t.cols.map Prod.fst).filter (fun name => strContainsSub name "Aux_Voltage_")

/-- main.py:99 `get_number_voltage_columns(df)`. -/
def get_number_voltage_columns (t : Table) : Nat :=
  (get_voltage_column_list t).length

/-- One step of the cutoff trim: `df = df[df[col] >= cutoff_voltage]`.  The
column is always present when called from `trim_to_cutoff_voltage`; the
missing-column branch returns the table unchanged (unreachable there). -/
def filterByCol (t : Table) (name : String) (pred : ℚ → Bool) : Table :=
  match getCol t name with
  | some vs => applyMask t (vs.map pred)
  | none => t

/-- main.py:112 `trim_to_cutoff_voltage(df, cutoff_voltage)`: sequentially
filter the rows by `value ≥ cutoff` for every voltage column. -/
def trim_to_cutoff_voltage (t : Table) (cutoff_voltage : ℚ) : Table :=
  (get_voltage_column_list t).foldl
    (fun acc col => filterByCol acc col (fun v => decide (cutoff_voltage ≤ v)))
    t

/-- The comparison loop of main.py:156-158: for each cell, replace the
current best when `df[cell][-1] < df[best][-1]`, propagating lookup errors. -/
def smallestLoop (t : Table) : List String → String → Except Err String
  | [], best => .ok best
  | cell :: rest, best => do
      let vc ← lastVal t cell
      let vb ← lastVal t best
      smallestLoop t rest (if vc < vb then cell else best)

/-- main.py:144 `get_smallest_voltage_cell(df)`: the voltage column whose
last-row value is smallest (strict comparison, so the first minimum wins).
An empty voltage-column list raises `IndexError` at `voltage_column_list[0]`. -/
def get_smallest_voltage_cell (t : Table) : Except Err String :=
  match get_voltage_column_list t with
  | [] => .error .indexError
  | c0 :: rest => smallestLoop t (c0 :: rest) c0

/-- The value of `np.round(x, 3)` scaled by 1000: round half to even. -/
def rhe (x : ℚ) : ℤ :=
  if x - ⌊x⌋ < 1/2 then ⌊x⌋
  else if 1/2 < x - ⌊x⌋ then ⌊x⌋ + 1
  else if ⌊x⌋ % 2 = 0 then ⌊x⌋ else ⌊x⌋ + 1

/-- numpy `x.round(3)`: round half to even at the third decimal. -/
def round3 (x : ℚ) : ℚ :=
  (rhe (1000 * x) : ℚ) / 1000

/-- main.py:182 `np.linspace(100, 0, n, endpoint=True).round(3)`.  For `n = 1`
numpy returns `[100]`, which the formula also yields here because in `ℚ`
division by zero is zero. -/
def socColumn (n : Nat) : List ℚ :=
  (List.range n).map
    (fun (i : ℕ) => round3 (100 - 100 * (i : ℚ) / ((n : ℚ) - 1)))

/-- main.py:162 `get_SOC_reference(df)`: a fresh table indexed by the rebased
test time, whose first column is the reference cell's voltage series and whose
second column `SOC_Ref` is the rounded linear SOC ramp.  The resulting index
holds numbers (`Test_Time(s)` values), hence is label-indexed. -/
def get_SOC_reference (t : Table) : Except Err Table := do
  let tt ← calculate_testtime t
  let smallest_cell ← get_smallest_voltage_cell t
  let vs ← colGet t smallest_cell
  pure ⟨tt, true,
    [(smallest_cell ++ "(REF)", vs), ("SOC_Ref", socColumn t.index.length)]⟩

/-- Smallest element of a list of rationals (0 on the empty list, which is
never consulted: numpy's `argmin` raises on an empty input). -/
def minQ : List ℚ → ℚ
  | [] => 0
  | [x] => x
  | x :: y :: xs => min x (minQ (y :: xs))

/-- numpy `np.argmin(xs)`: position of the first occurrence of the minimum. -/
def npArgmin (xs : List ℚ) : Nat :=
  xs.findIdx (fun v => decide (v = minQ xs))

/-- main.py:187 `soc_from_lut(refdf, voltage)`:
`refdf.iloc[np.argmin(abs(refdf[refdf.columns[0]] - voltage))][1]`.  The row
whose first-column value is nearest to `voltage` is selected positionally and
its second field (the SOC) returned.  `numpy.argmin` on an empty column raises
`ValueError`; a missing column 0 or field 1 raises `IndexError`. -/
def soc_from_lut (refdf : Table) (voltage : ℚ) : Except Err ℚ :=
  match refdf.cols.get? 0 with
  | none => .error .indexError
  | some q =>
      let dists := q.2.map (fun x => |x - voltage|)
      match dists with
      | [] => .error .valueError
      | _ :: _ =>
          match refdf.cols.get? 1 with
          | none => .error .indexError
          | some q1 =>
              match q1.2.get? (npArgmin dists) with
              | some s => .ok s
              | none => .error .indexError

/-- numpy `np.trapz(y, x)`: trapezoidal integral of the sampled signal `y`
over sample positions `x`. -/
def trapz : List ℚ → List ℚ → ℚ
  | y1 :: y2 :: ys, x1 :: x2 :: xs =>
      (x2 - x1) * (y1 + y2) / 2 + trapz (y2 :: ys) (x2 :: xs)
  | _, _ => 0

/-- main.py:242 `get_smallest_cap_cell(df)`:
`-np.trapz(df["Current(A)"], df["Test_Time(s)"]) / 3600`. -/
def get_smallest_cap_cell (t : Table) : Except Err ℚ := do
  let cur ← colGet t "Current(A)"
  let tt ← colGet t "Test_Time(s)"
  pure (-(trapz cur tt) / 3600)

/-- Fuel-bounded engine for Python's `str.replace` on character lists:
non-overlapping replacement, scanning left to right. -/
def replaceFuel (pat rep : List Char) : Nat → List Char → List Char
  | 0, s => s
  | _ + 1, [] => []
  | fuel + 1, c :: rest =>
      if pat ≠ [] ∧ pat.isPrefixOf (c :: rest) then
        rep ++ replaceFuel pat rep fuel ((c :: rest).drop pat.length)
      else
        c :: replaceFuel pat rep fuel rest

/-- Python `s.replace(pat, rep)` for a non-empty pattern. -/
def replaceSub (s pat rep : String) : String :=
  String.mk (replaceFuel pat.data rep.data s.data.length s.data)

/-- The cell identifier built at main.py:233-235:
`col.replace("Aux_Voltage_", "Cell ").replace("(V)", "")`. -/
def cellId (name : String) : String :=
  replaceSub (replaceSub name "Aux_Voltage_" "Cell ") "(V)" ""

/-- Effectful map over a list in the `Except` monad, mirroring the Python
`for` loop at main.py:223-227 (the first exception aborts the whole call). -/
def mapME (f : α → Except Err β) : List α → Except Err (List β)
  | [] => .ok []
  | x :: xs => do
      let y ← f x
      let ys ← mapME f xs
      pure (y :: ys)

/-- main.py:202 `get_final_SOC(df)`: one output row per voltage column,
holding the stripped cell identifier, the SOC looked up from the reference
table at the column's last-row voltage, and the derived capacity
`smallest_cap + smallest_cap * soc / 100`. -/
def get_final_SOC (t : Table) : Except Err (List (String × ℚ × ℚ)) := do
  let refdf ← get_SOC_reference t
  let smallest_cap ← get_smallest_cap_cell t
  mapME
    (fun col => do
      let vlast ← lastVal t col
      let soc ← soc_from_lut refdf vlast
      pure (cellId col, soc, smallest_cap + smallest_cap * soc / 100))
    (get_voltage_column_list t)

/-- Value at the last row of a column (0 when the column is absent or empty);
used to state properties of `get_smallest_voltage_cell`. -/
def lastOf (t : Table) (name : String) : ℚ :=
  ((getCol t name).getD []).getLastD 0

/-- Pure mirror of one `smallestLoop` comparison step. -/
def pickSmaller (t : Table) (best cell : String) : String :=
  if lastOf t cell < lastOf t best then cell else best

/-- The 3-row end-to-end scenario table of spec section 8: datetime-like
(non-integer) row index, `Test_Time(s) = [0,10,20]`, `Current(A) = [-1,-1,-1]`
and two voltage columns. -/
def sampleTable : Table :=
  ⟨[0, 10, 20], false,
    [("Test_Time(s)", [0, 10, 20]),
     ("Current(A)", [-1, -1, -1]),
     ("Aux_Voltage_1(V)", [2, 19/10, 17/10]),
     ("Aux_Voltage_2(V)", [2, 39/20, 37/20])]⟩

/-- The SOC reference table that `get_SOC_reference` produces from
`sampleTable`. -/
def sampleRef : Table :=
  ⟨[0, 10, 20], true,
    [("Aux_Voltage_1(V)(REF)", [2, 19/10, 17/10]),
     ("SOC_Ref", [100, 50, 0])]⟩


/-- A non-empty table whose row index is integer-valued with labels [0,1,2]
(so the label -1 is absent); used for the claims about label-based access. -/
def intIdxTable : Table :=
  ⟨[0, 1, 2], true,
    [("Test_Time(s)", [0, 10, 20]),
     ("Current(A)", [-1, -1, -1]),
     ("Aux_Voltage_1(V)", [2, 19/10, 17/10])]⟩

/-- A 1-row integer-indexed table with one voltage column. -/
def cexT6 : Table := ⟨[0], true, [("Aux_Voltage_1(V)", [2])]⟩

/-- A 1-row table (datetime-like index) carrying all the columns the SOC
pipeline needs. -/
def oneRowTable : Table :=
  ⟨[0], false,
    [("Test_Time(s)", [0]), ("Current(A)", [-1]), ("Aux_Voltage_1(V)", [2])]⟩

/-- A table whose single voltage column dips below 3/2 in the middle row and
recovers, so that cutoff trimming leaves a gap. -/
def cexT3 : Table := ⟨[0, 1, 2], false, [("Aux_Voltage_1(V)", [2, 1, 2])]⟩

/-! Concrete evaluation lemmas for the end-to-end scenario table. -/

lemma ev_vcols :
    get_voltage_column_list sampleTable = ["Aux_Voltage_1(V)", "Aux_Voltage_2(V)"] := by
  decide

lemma ev_cellId1 : cellId "Aux_Voltage_1(V)" = "Cell 1" := by decide

lemma ev_cellId2 : cellId "Aux_Voltage_2(V)" = "Cell 2" := by decide

lemma ev_intIndexed : sampleTable.intIndexed = false := rfl

lemma ev_getCol_tt : getCol sampleTable "Test_Time(s)" = some [0, 10, 20] := rfl

lemma ev_getCol_cur : getCol sampleTable "Current(A)" = some [-1, -1, -1] := rfl

lemma ev_getCol_v1 :
    getCol sampleTable "Aux_Voltage_1(V)" = some [2, 19/10, 17/10] := rfl

lemma ev_getCol_v2 :
    getCol sampleTable "Aux_Voltage_2(V)" = some [2, 39/20, 37/20] := rfl

lemma ev_last_v1 : lastVal sampleTable "Aux_Voltage_1(V)" = .ok (17/10) := by
  norm_num [lastVal, colGet, ev_getCol_v1, ev_intIndexed, seriesGet,
    Int.toNat_ofNat, List.get?, bind, Except.bind]

lemma ev_last_v2 : lastVal sampleTable "Aux_Voltage_2(V)" = .ok (37/20) := by
  norm_num [lastVal, colGet, ev_getCol_v2, ev_intIndexed, seriesGet,
    Int.toNat_ofNat, List.get?, bind, Except.bind]

lemma ev_gsvc :
    get_smallest_voltage_cell sampleTable = .ok "Aux_Voltage_1(V)" := by
  unfold get_smallest_voltage_cell
  rw [ev_vcols]
  norm_num [smallestLoop, ev_last_v1, ev_last_v2, bind, Except.bind]

lemma ev_cap : get_smallest_cap_cell sampleTable = .ok (20/3600) := by
  norm_num [get_smallest_cap_cell, colGet, ev_getCol_cur, ev_getCol_tt, trapz,
    bind, Except.bind, pure, Except.pure]

lemma ev_ttime : calculate_testtime sampleTable = .ok [0, 10, 20] := by
  norm_num [calculate_testtime, colGet, ev_getCol_tt, ev_intIndexed, seriesGet,
    Int.toNat_ofNat, List.get?, bind, Except.bind, pure, Except.pure]

lemma ev_range3 : List.range 3 = [0, 1, 2] := by decide

lemma ev_socCol3 : socColumn 3 = [100, 50, 0] := by
  norm_num [socColumn, ev_range3, round3, rhe]

lemma ev_refName : ("Aux_Voltage_1(V)" ++ "(REF)" : String) = "Aux_Voltage_1(V)(REF)" := by
  decide

lemma ev_ref : get_SOC_reference sampleTable = .ok sampleRef := by
  norm_num [get_SOC_reference, ev_ttime, ev_gsvc, colGet, ev_getCol_v1,
    bind, Except.bind, pure, Except.pure]
  norm_num [sampleRef, ev_refName, show sampleTable.index.length = 3 from rfl,
    ev_socCol3]

lemma ev_minQ_v1 : minQ [(3:ℚ)/10, 1/5, 0] = 0 := by
  norm_num [minQ, min_def]

lemma ev_argmin_v1 : npArgmin [(3:ℚ)/10, 1/5, 0] = 2 := by
  unfold npArgmin
  rw [ev_minQ_v1]
  norm_num [List.findIdx_cons]

lemma ev_lut_v1 : soc_from_lut sampleRef (17/10) = .ok 0 := by
  rw [soc_from_lut]
  norm_num [sampleRef, abs, max_def, ev_argmin_v1, List.get?]

lemma ev_minQ_v2 : minQ [(3:ℚ)/20, 1/20, 3/20] = 1/20 := by
  norm_num [minQ, min_def]

lemma ev_argmin_v2 : npArgmin [(3:ℚ)/20, 1/20, 3/20] = 1 := by
  unfold npArgmin
  rw [ev_minQ_v2]
  norm_num [List.findIdx_cons]

lemma ev_lut_v2 : soc_from_lut sampleRef (37/20) = .ok 50 := by
  rw [soc_from_lut]
  norm_num [sampleRef, abs, max_def, ev_argmin_v2, List.get?]

lemma ev_final :
    get_final_SOC sampleTable =
      .ok [("Cell 1", 0, 20/3600 + (20/3600) * 0 / 100),
           ("Cell 2", 50, 20/3600 + (20/3600) * 50 / 100)] := by
  rw [get_final_SOC]
  rw [ev_ref, ev_cap, ev_vcols]
  norm_num [mapME, ev_last_v1, ev_last_v2, ev_lut_v1, ev_lut_v2, ev_cellId1,
    ev_cellId2, bind, Except.bind, pure, Except.pure]

/-- C1: on the concrete 3-row table with `Test_Time(s) = [0,10,20]`,
`Current(A) = [-1,-1,-1]`, `Aux_Voltage_1(V) = [2.0,1.9,1.7]` and
`Aux_Voltage_2(V) = [2.0,1.95,1.85]` (datetime-like row index):
`get_smallest_voltage_cell` returns "Aux_Voltage_1(V)",
`get_smallest_cap_cell` returns 20/3600 Ah, the SOC column of
`get_SOC_reference` is [100, 50, 0], and `get_final_SOC` assigns cell 2 the
SOC 50 of the nearest reference voltage 1.9 and capacity
(20/3600) + (20/3600)*50/100 Ah. -/
theorem C1_end_to_end_scenario :
    get_smallest_voltage_cell sampleTable = .ok "Aux_Voltage_1(V)" ∧
    get_smallest_cap_cell sampleTable = .ok (20/3600) ∧
    (∃ r, get_SOC_reference sampleTable = .ok r ∧
      r.cols.get? 1 = some ("SOC_Ref", [100, 50, 0])) ∧
    get_final_SOC sampleTable =
      .ok [("Cell 1", 0, 20/3600 + (20/3600) * 0 / 100),
           ("Cell 2", 50, 20/3600 + (20/3600) * 50 / 100)] :=
  ⟨ev_gsvc, ev_cap, ⟨sampleRef, ev_ref, rfl⟩, ev_final⟩

/-! Lemmas about row-mask filtering. -/

lemma maskFilter_map_pred (p : α → Bool) :
    ∀ xs : List α, maskFilter (xs.map p) xs = xs.filter p := by
  intro xs
  induction xs with
  | nil => rfl
  | cons x xs ih =>
      simp only [List.map_cons, List.filter_cons]
      cases hp : p x with
      | true => simp [maskFilter, ih]
      | false => simp [maskFilter, ih]

lemma maskFilter_length_eq :
    ∀ (m : List Bool) (xs : List α) (ys : List β),
      m.length = xs.length → m.length = ys.length →
      (maskFilter m xs).length = (maskFilter m ys).length := by
  intro m
  induction m with
  | nil => intro xs ys _ _; cases xs <;> cases ys <;> rfl
  | cons b m ih =>
      intro xs ys hx hy
      cases xs with
      | nil => simp at hx
      | cons x xs =>
          cases ys with
          | nil => simp at hy
          | cons y ys =>
              simp only [List.length_cons, Nat.succ.injEq] at hx hy
              cases b with
              | true => simpa [maskFilter] using ih xs ys hx hy
              | false => exact ih xs ys hx hy

lemma maskFilter_allTrue :
    ∀ (m : List Bool) (xs : List α), (∀ b ∈ m, b = true) →
      m.length = xs.length → maskFilter m xs = xs := by
  intro m
  induction m with
  | nil => intro xs _ h; cases xs with
      | nil => rfl
      | cons x xs => simp at h
  | cons b m ih =>
      intro xs hall hlen
      cases xs with
      | nil => simp at hlen
      | cons x xs =>
          have hb : b = true := hall b (by simp)
          subst hb
          simp only [List.length_cons, Nat.succ.injEq] at hlen
          simp [maskFilter, ih xs (fun c hc => hall c (by simp [hc])) hlen]

lemma maskFilter_sublist :
    ∀ (m : List Bool) (xs : List α), List.Sublist (maskFilter m xs) xs := by
  intro m
  induction m with
  | nil => intro xs; cases xs <;> simp [maskFilter]
  | cons b m ih =>
      intro xs
      cases xs with
      | nil => simp [maskFilter]
      | cons x xs =>
          cases b with
          | true => exact List.Sublist.cons₂ x (ih xs)
          | false => exact List.Sublist.cons x (ih xs)

lemma isolate_index (t : Table) (a b : ℚ) :
    (isolate_timeinterval t a b).index =
      t.index.filter (fun x => decide (a ≤ x ∧ x ≤ b)) := by
  simp only [isolate_timeinterval, applyMask]
  exact maskFilter_map_pred _ t.index

lemma Table.eq_of (t1 t2 : Table) (h1 : t1.index = t2.index)
    (h2 : t1.intIndexed = t2.intIndexed) (h3 : t1.cols = t2.cols) :
    t1 = t2 := by
  cases t1; cases t2; simp_all

/-- A table all of whose rows lie inside the interval is returned unchanged
by `isolate_timeinterval`. -/
lemma isolate_of_all_mem (r : Table) (a b : ℚ)
    (hlen : ∀ q ∈ r.cols, q.2.length = r.index.length)
    (hmem : ∀ x ∈ r.index, a ≤ x ∧ x ≤ b) :
    isolate_timeinterval r a b = r := by
  set p : ℚ → Bool := fun x => decide (a ≤ x ∧ x ≤ b) with hp
  have hall : ∀ c ∈ r.index.map p, c = true := by
    intro c hc
    rcases List.mem_map.mp hc with ⟨x, hx, hcx⟩
    rw [← hcx]
    exact decide_eq_true (hmem x hx)
  apply Table.eq_of
  · show maskFilter (r.index.map p) r.index = r.index
    exact maskFilter_allTrue _ _ hall (by simp)
  · rfl
  · show r.cols.map (fun q => (q.1, maskFilter (r.index.map p) q.2)) = r.cols
    have : ∀ q ∈ r.cols, (q.1, maskFilter (r.index.map p) q.2) = id q := by
      intro q hq
      have : maskFilter (r.index.map p) q.2 = q.2 :=
        maskFilter_allTrue _ _ hall (by simp [hlen q hq])
      simp [this]
    rw [List.map_congr_left this, List.map_id]

/-- C7: on a table sorted by its time index and bounds a ≤ b, every row of
`isolate_timeinterval t a b` has its time key in [a, b], and the operation is
idempotent. -/
theorem C7_isolate_timeinterval_interval_and_idempotent
    (t : Table) (a b : ℚ) (hWF : t.WF)
    (hsorted : t.index.Chain' (· ≤ ·)) (hab : a ≤ b) :
    (∀ x ∈ (isolate_timeinterval t a b).index, a ≤ x ∧ x ≤ b) ∧
    isolate_timeinterval (isolate_timeinterval t a b) a b =
      isolate_timeinterval t a b := by
  have hmem : ∀ x ∈ (isolate_timeinterval t a b).index, a ≤ x ∧ x ≤ b := by
    intro x hx
    rw [isolate_index] at hx
    exact of_decide_eq_true (List.mem_filter.mp hx).2
  refine ⟨hmem, ?_⟩
  apply isolate_of_all_mem _ a b _ hmem
  intro q hq
  simp only [isolate_timeinterval, applyMask, List.mem_map] at hq
  rcases hq with ⟨q0, hq0, rfl⟩
  simp only [isolate_timeinterval, applyMask]
  exact maskFilter_length_eq _ _ _ (by simp [hWF.2 q0 hq0]) (by simp)

theorem C7_witness :
    sampleTable.WF ∧ sampleTable.index.Chain' (· ≤ ·) ∧ (0:ℚ) ≤ 10 ∧
    ((∀ x ∈ (isolate_timeinterval sampleTable 0 10).index, 0 ≤ x ∧ x ≤ 10) ∧
     isolate_timeinterval (isolate_timeinterval sampleTable 0 10) 0 10 =
       isolate_timeinterval sampleTable 0 10) := by
  have hWF : sampleTable.WF := by decide
  have hch : sampleTable.index.Chain' (· ≤ ·) := by
    norm_num [sampleTable, List.chain'_cons]
  exact ⟨hWF, hch, by norm_num,
    C7_isolate_timeinterval_interval_and_idempotent sampleTable 0 10 hWF hch
      (by norm_num)⟩

/-- C2 fails as stated: on the non-empty integer-indexed table with row
labels [5, 6] (e.g. a slice of a larger table that kept pandas row labels)
and `Test_Time(s) = [50, 60]`, `calculate_testtime` raises a `KeyError`
(the scalar lookup `df["Test_Time(s)"][0]` is a label lookup and the label 0
is absent) instead of returning the rebased series. -/
theorem C2_counterexample :
    (⟨[5, 6], true, [("Test_Time(s)", [50, 60])]⟩ : Table).index ≠ [] ∧
    getCol ⟨[5, 6], true, [("Test_Time(s)", [50, 60])]⟩ "Test_Time(s)" =
      some [50, 60] ∧
    calculate_testtime ⟨[5, 6], true, [("Test_Time(s)", [50, 60])]⟩ =
      .error .keyError := by
  refine ⟨by simp, rfl, ?_⟩
  norm_num [calculate_testtime, colGet, getCol, seriesGet, List.find?,
    List.zip, List.zipWith, bind, Except.bind]

/-- C2 (amended): for every wellformed table with a non-empty
`Test_Time(s)` column, provided the scalar lookup with key 0 resolves to the
first row — i.e. the row index is not integer-valued (positional fallback),
or its first label is 0 — `calculate_testtime` returns the series rebased at
the first row, whose first entry is 0. -/
theorem C2_amended (t : Table) (ts : List ℚ) (hWF : t.WF)
    (hcol : getCol t "Test_Time(s)" = some ts) (hne : ts ≠ [])
    (hfb : t.intIndexed = false ∨ t.index.head? = some 0) :
    calculate_testtime t = .ok (ts.map (fun x => x - ts.headI)) ∧
    (ts.map (fun x => x - ts.headI)).head? = some 0 := by
  obtain ⟨t0, ts', rfl⟩ : ∃ t0 ts', ts = t0 :: ts' := by
    cases ts with
    | nil => exact absurd rfl hne
    | cons a l => exact ⟨a, l, rfl⟩
  have hget : seriesGet t.index t.intIndexed (t0 :: ts') 0 = .ok t0 := by
    cases hii : t.intIndexed with
    | false =>
        simp [seriesGet, List.get?]
    | true =>
        rcases hfb with hfb | hfb
        · rw [hii] at hfb; cases hfb
        · cases hidx : t.index with
          | nil => rw [hidx] at hfb; simp at hfb
          | cons i0 idx' =>
              rw [hidx] at hfb
              simp only [List.head?] at hfb
              injection hfb with hi0
              simp [seriesGet, hidx, hi0, List.zip, List.zipWith, List.find?]
  constructor
  · simp only [calculate_testtime, colGet, hcol, bind, Except.bind, hget,
      pure, Except.pure]
    simp [List.headI]
  · simp [List.headI]

theorem C2_witness :
    sampleTable.WF ∧
    getCol sampleTable "Test_Time(s)" = some [0, 10, 20] ∧
    ([0, 10, 20] : List ℚ) ≠ [] ∧
    sampleTable.intIndexed = false ∧
    (calculate_testtime sampleTable =
        .ok (([0, 10, 20] : List ℚ).map (fun x => x - ([0, 10, 20] : List ℚ).headI)) ∧
      (([0, 10, 20] : List ℚ).map (fun x => x - ([0, 10, 20] : List ℚ).headI)).head? =
        some 0) := by
  have hWF : sampleTable.WF := by decide
  exact ⟨hWF, ev_getCol_tt, by simp, rfl,
    C2_amended sampleTable [0, 10, 20] hWF ev_getCol_tt (by simp) (Or.inl rfl)⟩

/-- C8: on a table with zero voltage columns, `get_smallest_voltage_cell`,
`get_SOC_reference` and `get_final_SOC` all fail with an error rather than
returning any default value. -/
theorem C8_no_voltage_columns_error (t : Table)
    (h : get_number_voltage_columns t = 0) :
    (∃ e, get_smallest_voltage_cell t = .error e) ∧
    (∃ e, get_SOC_reference t = .error e) ∧
    (∃ e, get_final_SOC t = .error e) := by
  have hv : get_voltage_column_list t = [] := List.length_eq_zero.mp h
  have h1 : get_smallest_voltage_cell t = .error .indexError := by
    simp [get_smallest_voltage_cell, hv]
  have h2 : ∃ e, get_SOC_reference t = .error e := by
    cases hct : calculate_testtime t with
    | error e => exact ⟨e, by simp [get_SOC_reference, hct, bind, Except.bind]⟩
    | ok tt =>
        exact ⟨.indexError,
          by simp [get_SOC_reference, hct, h1, bind, Except.bind]⟩
  obtain ⟨e2, h2'⟩ := h2
  exact ⟨⟨_, h1⟩, ⟨e2, h2'⟩,
    ⟨e2, by simp [get_final_SOC, h2', bind, Except.bind]⟩⟩

theorem C8_witness :
    get_number_voltage_columns ⟨[0], false, [("Test_Time(s)", [0])]⟩ = 0 ∧
    ((∃ e, get_smallest_voltage_cell ⟨[0], false, [("Test_Time(s)", [0])]⟩ =
        .error e) ∧
     (∃ e, get_SOC_reference ⟨[0], false, [("Test_Time(s)", [0])]⟩ =
        .error e) ∧
     (∃ e, get_final_SOC ⟨[0], false, [("Test_Time(s)", [0])]⟩ = .error e)) :=
  ⟨by decide, C8_no_voltage_columns_error _ (by decide)⟩

/-- On a non-integer (e.g. datetime) row index, the scalar access
`df[col][-1]` is positional and yields the value at the last row. -/
lemma lastVal_pos (t : Table) (name : String) (vs : List ℚ)
    (hii : t.intIndexed = false) (hcol : getCol t name = some vs)
    (hne : vs ≠ []) : lastVal t name = .ok (vs.getLastD 0) := by
  simp only [lastVal, colGet, hcol, bind, Except.bind]
  rw [hii]
  simp only [seriesGet, if_false, Bool.false_eq_true]
  have hlen : 1 ≤ vs.length := by
    cases vs with
    | nil => exact absurd rfl hne
    | cons x xs => simp
  have h1 : ((-1 : ℤ) < 0) := by norm_num
  rw [if_pos h1]
  have h2 : ¬ ((-1 : ℤ) + (vs.length : ℤ) < 0) := by omega
  rw [if_neg h2]
  have h3 : ((-1 : ℤ) + (vs.length : ℤ)).toNat = vs.length - 1 := by omega
  rw [h3]
  obtain ⟨x, hx⟩ : ∃ x, vs.getLast? = some x :=
    Option.isSome_iff_exists.mp (List.getLast?_isSome.mpr hne)
  have h4 : vs.get? (vs.length - 1) = some x := by
    rw [← List.getLast?_eq_get?]
    exact hx
  rw [h4]
  rw [List.getLastD_eq_getLast?, hx]
  rfl

/-- C10: `get_smallest_voltage_cell` and `get_final_SOC` read the "last row"
of a voltage column through the scalar key -1, which on an integer-valued row
index is a label lookup: on the concrete non-empty table with integer row
labels [0, 1, 2] (which do not contain -1) both operations fail with a
`KeyError`; the positional last row is used only on a non-integer index. -/
theorem C10_last_row_is_label_minus_one :
    (intIdxTable.index ≠ [] ∧ ((-1 : ℚ)) ∉ intIdxTable.index ∧
     get_smallest_voltage_cell intIdxTable = .error .keyError ∧
     get_final_SOC intIdxTable = .error .keyError) ∧
    (∀ (t : Table) (name : String) (vs : List ℚ), t.intIndexed = false →
      getCol t name = some vs → vs ≠ [] →
      lastVal t name = .ok (vs.getLastD 0)) := by
  constructor
  · have hcolV : getCol intIdxTable "Aux_Voltage_1(V)" =
        some [2, 19/10, 17/10] := rfl
    have hcolT : getCol intIdxTable "Test_Time(s)" = some [0, 10, 20] := rfl
    have hii : intIdxTable.intIndexed = true := rfl
    have hidx : intIdxTable.index = [0, 1, 2] := rfl
    have hv : get_voltage_column_list intIdxTable = ["Aux_Voltage_1(V)"] := by
      decide
    have hlastV : lastVal intIdxTable "Aux_Voltage_1(V)" = .error .keyError := by
      simp only [lastVal, colGet, hcolV, bind, Except.bind]
      rw [hii, hidx]
      norm_num [seriesGet, List.find?, List.zip, List.zipWith]
    have hgsvc : get_smallest_voltage_cell intIdxTable = .error .keyError := by
      unfold get_smallest_voltage_cell
      rw [hv]
      simp [smallestLoop, hlastV, bind, Except.bind]
    have htt : calculate_testtime intIdxTable = .ok [0, 10, 20] := by
      simp only [calculate_testtime, colGet, hcolT, bind, Except.bind]
      rw [hii, hidx]
      norm_num [seriesGet, List.find?, List.zip, List.zipWith, pure, Except.pure]
    refine ⟨by rw [hidx]; simp, by rw [hidx]; norm_num, hgsvc, ?_⟩
    simp [get_final_SOC, get_SOC_reference, htt, hgsvc, bind, Except.bind]
  · exact fun t name vs hii hcol hne => lastVal_pos t name vs hii hcol hne

theorem C10_witness :
    (⟨[1/2], false, [("v", [7])]⟩ : Table).intIndexed = false ∧
    getCol ⟨[1/2], false, [("v", [7])]⟩ "v" = some [7] ∧
    ([7] : List ℚ) ≠ [] ∧
    lastVal ⟨[1/2], false, [("v", [7])]⟩ "v" = .ok (([7] : List ℚ).getLastD 0) :=
  ⟨rfl, rfl, by simp,
    C10_last_row_is_label_minus_one.2 ⟨[1/2], false, [("v", [7])]⟩ "v" [7]
      rfl rfl (by simp)⟩

/-! Lemmas about column access and the smallest-voltage-cell loop. -/

lemma getCol_mem {t : Table} {name : String} {vs : List ℚ}
    (h : getCol t name = some vs) : ∃ q ∈ t.cols, q.1 = name ∧ q.2 = vs := by
  simp only [getCol, Option.map_eq_some'] at h
  rcases h with ⟨q, hq, hvs⟩
  have hpq := List.find?_some hq
  simp only [decide_eq_true_eq] at hpq
  exact ⟨q, List.mem_of_find?_eq_some hq, hpq, hvs⟩

lemma getCol_isSome_of_mem_names {t : Table} {name : String}
    (h : name ∈ t.cols.map Prod.fst) : ∃ vs, getCol t name = some vs := by
  rcases List.mem_map.mp h with ⟨q, hq, hname⟩
  have : (t.cols.find? (fun p => decide (p.1 = name))).isSome := by
    rw [List.find?_isSome]
    exact ⟨q, hq, decide_eq_true hname⟩
  rcases Option.isSome_iff_exists.mp this with ⟨q', hq'⟩
  exact ⟨q'.2, by simp [getCol, hq']⟩

lemma lastOf_eq {t : Table} {name : String} {vs : List ℚ}
    (h : getCol t name = some vs) : lastOf t name = vs.getLastD 0 := by
  simp [lastOf, h]

lemma col_ne_nil {t : Table} {name : String} {vs : List ℚ} (hWF : t.WF)
    (h : getCol t name = some vs) (hne : t.index ≠ []) : vs ≠ [] := by
  rcases getCol_mem h with ⟨q, hq, _, hvs⟩
  have hlen : q.2.length = t.index.length := hWF.2 q hq
  intro hnil
  rw [hvs, hnil] at hlen
  exact hne (List.length_eq_zero.mp hlen.symm)

lemma lastVal_ok {t : Table} {name : String} (hWF : t.WF)
    (hii : t.intIndexed = false) (hne : t.index ≠ [])
    (h : name ∈ t.cols.map Prod.fst) :
    lastVal t name = .ok (lastOf t name) := by
  rcases getCol_isSome_of_mem_names h with ⟨vs, hvs⟩
  rw [lastOf_eq hvs]
  exact lastVal_pos t name vs hii hvs (col_ne_nil hWF hvs hne)

lemma vcols_subset_names (t : Table) :
    ∀ c ∈ get_voltage_column_list t, c ∈ t.cols.map Prod.fst := by
  intro c hc
  exact List.mem_of_mem_filter hc

lemma smallestLoop_eq (t : Table) :
    ∀ (L : List String) (b : String),
      (∀ c ∈ L, lastVal t c = .ok (lastOf t c)) →
      lastVal t b = .ok (lastOf t b) →
      smallestLoop t L b = .ok (L.foldl (pickSmaller t) b) := by
  intro L
  induction L with
  | nil => intro b _ _; rfl
  | cons c L ih =>
      intro b hL hb
      have hc := hL c (by simp)
      simp only [smallestLoop, hc, hb, bind, Except.bind, List.foldl_cons]
      by_cases hlt : lastOf t c < lastOf t b
      · rw [if_pos hlt]
        rw [ih c (fun d hd => hL d (by simp [hd])) hc]
        simp [pickSmaller, hlt]
      · rw [if_neg hlt]
        rw [ih b (fun d hd => hL d (by simp [hd])) hb]
        simp [pickSmaller, hlt]

lemma foldl_pick_spec (t : Table) :
    ∀ (L : List String) (b : String),
      (L.foldl (pickSmaller t) b = b ∧ ∀ c ∈ L, lastOf t b ≤ lastOf t c) ∨
      (∃ i c, L.get? i = some c ∧ L.foldl (pickSmaller t) b = c ∧
        lastOf t c < lastOf t b ∧ (∀ d ∈ L, lastOf t c ≤ lastOf t d) ∧
        (∀ j d, j < i → L.get? j = some d → lastOf t c < lastOf t d)) := by
  intro L
  induction L with
  | nil => intro b; left; simp
  | cons x L ih =>
      intro b
      rw [List.foldl_cons]
      by_cases hx : lastOf t x < lastOf t b
      · have hpick : pickSmaller t b x = x := by simp [pickSmaller, hx]
        rw [hpick]
        rcases ih x with ⟨heq, hmin⟩ | ⟨i, c, hget, heq, hlt, hmin, hfirst⟩
        · right
          refine ⟨0, x, rfl, heq, hx, ?_, ?_⟩
          · intro d hd
            rcases List.mem_cons.mp hd with rfl | hd
            · exact le_refl _
            · exact hmin d hd
          · intro j d hj _
            omega
        · right
          refine ⟨i + 1, c, by simpa using hget, heq, hlt.trans hx, ?_, ?_⟩
          · intro d hd
            rcases List.mem_cons.mp hd with rfl | hd
            · exact le_of_lt hlt
            · exact hmin d hd
          · intro j d hj hget'
            cases j with
            | zero =>
                simp only [List.get?] at hget'
                injection hget' with hd
                rw [← hd]
                exact hlt
            | succ j =>
                exact hfirst j d (by omega) (by simpa using hget')
      · have hpick : pickSmaller t b x = b := by simp [pickSmaller, hx]
        rw [hpick]
        rcases ih b with ⟨heq, hmin⟩ | ⟨i, c, hget, heq, hlt, hmin, hfirst⟩
        · left
          refine ⟨heq, ?_⟩
          intro d hd
          rcases List.mem_cons.mp hd with rfl | hd
          · exact not_lt.mp hx
          · exact hmin d hd
        · right
          refine ⟨i + 1, c, by simpa using hget, heq, hlt, ?_, ?_⟩
          · intro d hd
            rcases List.mem_cons.mp hd with rfl | hd
            · exact le_of_lt (lt_of_lt_of_le hlt (not_lt.mp hx))
            · exact hmin d hd
          · intro j d hj hget'
            cases j with
            | zero =>
                simp only [List.get?] at hget'
                injection hget' with hd
                rw [← hd]
                exact lt_of_lt_of_le hlt (not_lt.mp hx)
            | succ j =>
                exact hfirst j d (by omega) (by simpa using hget')

/-- C6 fails as stated: on the non-empty table `cexT6` with one voltage
column but an integer row index with labels [0] (no label -1),
`get_smallest_voltage_cell` raises a `KeyError` instead of returning the
column with smallest last-row value. -/
theorem C6_counterexample :
    get_voltage_column_list cexT6 = ["Aux_Voltage_1(V)"] ∧
    get_smallest_voltage_cell cexT6 = .error .keyError := by
  refine ⟨by decide, ?_⟩
  have hcol : getCol cexT6 "Aux_Voltage_1(V)" = some [2] := rfl
  have hsg : seriesGet [0] true [2] (-1) = .error .keyError := by
    norm_num [seriesGet, List.find?, List.zip, List.zipWith]
  have hlastV : lastVal cexT6 "Aux_Voltage_1(V)" = .error .keyError := by
    simp only [lastVal, colGet, hcol, bind, Except.bind]
    exact hsg
  unfold get_smallest_voltage_cell
  rw [(by decide : get_voltage_column_list cexT6 = ["Aux_Voltage_1(V)"])]
  simp [smallestLoop, hlastV, bind, Except.bind]

/-- C6 (amended): on every wellformed table with at least one voltage column
whose last-row reads succeed (non-integer row index, at least one row),
`get_smallest_voltage_cell` returns a voltage column whose last-row value is
minimal among the voltage columns, and it is the first such column in column
order (all earlier voltage columns have strictly larger last-row values,
because the comparison is strict). -/
theorem C6_amended (t : Table) (hWF : t.WF) (hii : t.intIndexed = false)
    (hne : t.index ≠ []) (hvne : get_voltage_column_list t ≠ []) :
    ∃ c i, get_smallest_voltage_cell t = .ok c ∧
      (get_voltage_column_list t).get? i = some c ∧
      (∀ d ∈ get_voltage_column_list t, lastOf t c ≤ lastOf t d) ∧
      (∀ j d, j < i → (get_voltage_column_list t).get? j = some d →
        lastOf t c < lastOf t d) := by
  obtain ⟨c0, rest, hv⟩ : ∃ c0 rest, get_voltage_column_list t = c0 :: rest := by
    cases hvl : get_voltage_column_list t with
    | nil => exact absurd hvl hvne
    | cons a l => exact ⟨a, l, rfl⟩
  have hall : ∀ c ∈ get_voltage_column_list t,
      lastVal t c = .ok (lastOf t c) := by
    intro c hc
    exact lastVal_ok hWF hii hne (vcols_subset_names t c hc)
  have hc0 : lastVal t c0 = .ok (lastOf t c0) := by
    apply hall
    rw [hv]
    simp
  have hrun : get_smallest_voltage_cell t =
      .ok ((c0 :: rest).foldl (pickSmaller t) c0) := by
    unfold get_smallest_voltage_cell
    rw [hv]
    exact smallestLoop_eq t (c0 :: rest) c0 (by rw [← hv]; exact hall) hc0
  rcases foldl_pick_spec t (c0 :: rest) c0 with
    ⟨heq, hmin⟩ | ⟨i, c, hget, heq, _, hmin, hfirst⟩
  · refine ⟨c0, 0, ?_, ?_, ?_, ?_⟩
    · rw [hrun, heq]
    · rw [hv]; rfl
    · rw [hv]; exact hmin
    · intro j d hj _; omega
  · refine ⟨c, i, ?_, ?_, ?_, ?_⟩
    · rw [hrun, heq]
    · rw [hv]; exact hget
    · rw [hv]; exact hmin
    · intro j d hj hget'
      rw [hv] at hget'
      exact hfirst j d hj hget'

theorem C6_witness :
    sampleTable.WF ∧ sampleTable.intIndexed = false ∧
    sampleTable.index ≠ [] ∧ get_voltage_column_list sampleTable ≠ [] ∧
    (∃ c i, get_smallest_voltage_cell sampleTable = .ok c ∧
      (get_voltage_column_list sampleTable).get? i = some c ∧
      (∀ d ∈ get_voltage_column_list sampleTable,
        lastOf sampleTable c ≤ lastOf sampleTable d) ∧
      (∀ j d, j < i → (get_voltage_column_list sampleTable).get? j = some d →
        lastOf sampleTable c < lastOf sampleTable d)) := by
  have hWF : sampleTable.WF := by decide
  refine ⟨hWF, rfl, by simp [sampleTable], by rw [ev_vcols]; simp, ?_⟩
  exact C6_amended sampleTable hWF rfl (by simp [sampleTable])
    (by rw [ev_vcols]; simp)

/-! Lemmas about cutoff trimming. -/

lemma filterByCol_names (t : Table) (n : String) (p : ℚ → Bool) :
    (filterByCol t n p).cols.map Prod.fst = t.cols.map Prod.fst := by
  unfold filterByCol
  cases h : getCol t n with
  | none => rfl
  | some vs =>
      simp only [applyMask, List.map_map]
      rfl

lemma filterByCol_index_sublist (t : Table) (n : String) (p : ℚ → Bool) :
    List.Sublist (filterByCol t n p).index t.index := by
  unfold filterByCol
  cases h : getCol t n with
  | none => exact List.Sublist.refl _
  | some vs => exact maskFilter_sublist _ _

lemma filterByCol_cols (t : Table) (n : String) (p : ℚ → Bool) :
    ∀ q ∈ t.cols, ∃ vs', ((q.1, vs') ∈ (filterByCol t n p).cols ∧
      List.Sublist vs' q.2) := by
  intro q hq
  unfold filterByCol
  cases h : getCol t n with
  | none => exact ⟨q.2, by simpa using hq, List.Sublist.refl _⟩
  | some vs =>
      refine ⟨maskFilter (vs.map p) q.2, ?_, maskFilter_sublist _ _⟩
      simp only [applyMask, List.mem_map]
      exact ⟨q, hq, rfl⟩

lemma filterByCol_WF {t : Table} (n : String) (p : ℚ → Bool) (hWF : t.WF) :
    (filterByCol t n p).WF := by
  unfold filterByCol
  cases h : getCol t n with
  | none => exact hWF
  | some vs =>
      rcases getCol_mem h with ⟨q0, hq0, _, hvs⟩
      have hvslen : vs.length = t.index.length := by
        rw [← hvs]
        exact hWF.2 q0 hq0
      constructor
      · have := filterByCol_names t n p
        unfold filterByCol at this
        rw [h] at this
        rw [this]
        exact hWF.1
      · intro q hq
        simp only [applyMask, List.mem_map] at hq
        rcases hq with ⟨q1, hq1, rfl⟩
        simp only [applyMask]
        exact maskFilter_length_eq _ _ _
          (by simp [hvslen, hWF.2 q1 hq1]) (by simp [hvslen])

lemma filterByCol_getCol {t : Table} {n : String} {vs : List ℚ}
    (p : ℚ → Bool) (h : getCol t n = some vs) :
    getCol (filterByCol t n p) n = some (vs.filter p) := by
  unfold filterByCol
  rw [h]
  simp only [getCol, applyMask] at h ⊢
  rw [List.find?_map]
  have hcomp : ((fun q : String × List ℚ => decide (q.1 = n)) ∘
      (fun q : String × List ℚ => (q.1, maskFilter (vs.map p) q.2))) =
      fun q : String × List ℚ => decide (q.1 = n) := rfl
  rw [hcomp]
  rcases Option.map_eq_some'.mp h with ⟨q0, hq0, hsnd⟩
  rw [hq0]
  simp only [Option.map_some']
  rw [← hsnd, maskFilter_map_pred]

lemma filterByCol_getCol_mono {t : Table} {n' : String} {vs' : List ℚ}
    (n : String) (p : ℚ → Bool) (P : ℚ → Prop)
    (h : getCol t n' = some vs') (hall : ∀ v ∈ vs', P v) :
    ∃ vs'', getCol (filterByCol t n p) n' = some vs'' ∧ ∀ v ∈ vs'', P v := by
  unfold filterByCol
  cases hg : getCol t n with
  | none => exact ⟨vs', h, hall⟩
  | some vs =>
      refine ⟨maskFilter (vs.map p) vs', ?_, ?_⟩
      · simp only [getCol, applyMask]
        rw [List.find?_map]
        have hcomp : ((fun q : String × List ℚ => decide (q.1 = n')) ∘
            (fun q : String × List ℚ => (q.1, maskFilter (vs.map p) q.2))) =
            fun q : String × List ℚ => decide (q.1 = n') := rfl
        rw [hcomp]
        simp only [getCol] at h
        rcases Option.map_eq_some'.mp h with ⟨q0, hq0, hsnd⟩
        rw [hq0]
        simp only [Option.map_some']
        rw [← hsnd]
      · intro v hv
        exact hall v ((maskFilter_sublist _ _).subset hv)

lemma trimFold_WF (c : ℚ) :
    ∀ (L : List String) (acc : Table), acc.WF →
      (L.foldl (fun a col => filterByCol a col (fun v => decide (c ≤ v))) acc).WF := by
  intro L
  induction L with
  | nil => intro acc h; exact h
  | cons x L ih =>
      intro acc h
      rw [List.foldl_cons]
      exact ih _ (filterByCol_WF x _ h)

lemma trimFold_names (c : ℚ) :
    ∀ (L : List String) (acc : Table),
      ((L.foldl (fun a col => filterByCol a col (fun v => decide (c ≤ v)))
          acc).cols.map Prod.fst) = acc.cols.map Prod.fst := by
  intro L
  induction L with
  | nil => intro acc; rfl
  | cons x L ih =>
      intro acc
      rw [List.foldl_cons, ih, filterByCol_names]

lemma trimFold_index (c : ℚ) :
    ∀ (L : List String) (acc : Table),
      List.Sublist
        (L.foldl (fun a col => filterByCol a col (fun v => decide (c ≤ v)))
          acc).index acc.index := by
  intro L
  induction L with
  | nil => intro acc; exact List.Sublist.refl _
  | cons x L ih =>
      intro acc
      rw [List.foldl_cons]
      exact (ih _).trans (filterByCol_index_sublist _ _ _)

lemma trimFold_cols (c : ℚ) :
    ∀ (L : List String) (acc : Table), ∀ q ∈ acc.cols,
      ∃ vs', ((q.1, vs') ∈
          (L.foldl (fun a col => filterByCol a col (fun v => decide (c ≤ v)))
            acc).cols ∧ List.Sublist vs' q.2) := by
  intro L
  induction L with
  | nil => intro acc q hq; exact ⟨q.2, by simpa using hq, List.Sublist.refl _⟩
  | cons x L ih =>
      intro acc q hq
      rw [List.foldl_cons]
      rcases filterByCol_cols acc x (fun v => decide (c ≤ v)) q hq with
        ⟨v1, hv1, hs1⟩
      rcases ih _ (q.1, v1) hv1 with ⟨v2, hv2, hs2⟩
      exact ⟨v2, by simpa using hv2, hs2.trans hs1⟩

lemma trimFold_preserve (c : ℚ) :
    ∀ (L : List String) (acc : Table) (n : String) (vs : List ℚ),
      getCol acc n = some vs → (∀ v ∈ vs, c ≤ v) →
      ∃ vs', getCol
          (L.foldl (fun a col => filterByCol a col (fun v => decide (c ≤ v)))
            acc) n = some vs' ∧ ∀ v ∈ vs', c ≤ v := by
  intro L
  induction L with
  | nil => intro acc n vs h hall; exact ⟨vs, h, hall⟩
  | cons x L ih =>
      intro acc n vs h hall
      rw [List.foldl_cons]
      rcases filterByCol_getCol_mono x (fun v => decide (c ≤ v)) _ h hall with
        ⟨vs1, hvs1, hall1⟩
      exact ih _ n vs1 hvs1 hall1

lemma trimFold_establish (c : ℚ) :
    ∀ (L : List String) (acc : Table), acc.WF →
      (∀ col ∈ L, col ∈ acc.cols.map Prod.fst) →
      ∀ col ∈ L,
        ∃ vs', getCol
            (L.foldl (fun a col => filterByCol a col (fun v => decide (c ≤ v)))
              acc) col = some vs' ∧ ∀ v ∈ vs', c ≤ v := by
  intro L
  induction L with
  | nil => intro acc _ _ col hcol; cases hcol
  | cons x L ih =>
      intro acc hWF hpres col hcol
      rw [List.foldl_cons]
      rcases getCol_isSome_of_mem_names (hpres x (by simp)) with ⟨vs, hvs⟩
      rcases List.mem_cons.mp hcol with rfl | hcol
      · have hfc : getCol (filterByCol acc col (fun v => decide (c ≤ v))) col =
            some (vs.filter (fun v => decide (c ≤ v))) :=
          filterByCol_getCol _ hvs
        apply trimFold_preserve c L _ col _ hfc
        intro u hu
        exact of_decide_eq_true (List.mem_filter.mp hu).2
      · apply ih _ (filterByCol_WF x _ hWF) _ col hcol
        intro d hd
        rw [filterByCol_names]
        exact hpres d (by simp [hd])

/-- C3 fails as stated: on the table `cexT3` whose single voltage column is
[2, 1, 2] (a dip below the cutoff 3/2 in the middle row), the trim keeps rows
0 and 2 — a subsequence with a gap, not a prefix of the original row order. -/
theorem C3_counterexample :
    trim_to_cutoff_voltage cexT3 (3/2) =
      ⟨[0, 2], false, [("Aux_Voltage_1(V)", [2, 2])]⟩ ∧
    ¬ ((⟨[0, 2], false, [("Aux_Voltage_1(V)", [2, 2])]⟩ : Table).index <+:
        cexT3.index) := by
  constructor
  · have hg : getCol cexT3 "Aux_Voltage_1(V)" = some [2, 1, 2] := rfl
    have hmask : List.map (fun v => decide ((3:ℚ)/2 ≤ v)) [2, 1, 2] =
        [true, false, true] := by norm_num
    unfold trim_to_cutoff_voltage
    rw [(by decide : get_voltage_column_list cexT3 = ["Aux_Voltage_1(V)"])]
    rw [List.foldl_cons, List.foldl_nil]
    unfold filterByCol
    rw [hg]
    dsimp only []
    rw [hmask]
    apply Table.eq_of
    · simp [applyMask, cexT3, maskFilter]
    · rfl
    · simp [applyMask, cexT3, maskFilter]
  · rintro ⟨l, hl⟩
    simp only [(rfl : cexT3.index = ([0, 1, 2] : List ℚ)), List.cons_append,
      List.nil_append] at hl
    have h2 := (List.cons.injEq _ _ _ _).mp hl
    have h3 := (List.cons.injEq _ _ _ _).mp h2.2
    norm_num at h3

/-- C3 (amended): for every wellformed table and cutoff, every voltage column
of `trim_to_cutoff_voltage t c` has all its surviving values ≥ c, and the
result's rows form a subsequence of the original row order (no reordering, no
new rows); a prefix is only obtained under the monotone-discharge assumption,
not in general. -/
theorem C3_amended (t : Table) (c : ℚ) (hWF : t.WF) :
    (∀ name ∈ get_voltage_column_list t, ∃ vs,
        getCol (trim_to_cutoff_voltage t c) name = some vs ∧ ∀ v ∈ vs, c ≤ v) ∧
    List.Sublist (trim_to_cutoff_voltage t c).index t.index ∧
    (∀ q ∈ t.cols, ∃ vs', ((q.1, vs') ∈ (trim_to_cutoff_voltage t c).cols ∧
        List.Sublist vs' q.2)) := by
  refine ⟨?_, ?_, ?_⟩
  · intro name hname
    exact trimFold_establish c (get_voltage_column_list t) t hWF
      (fun col hcol => vcols_subset_names t col hcol) name hname
  · exact trimFold_index c (get_voltage_column_list t) t
  · exact trimFold_cols c (get_voltage_column_list t) t

theorem C3_witness :
    sampleTable.WF ∧
    ((∀ name ∈ get_voltage_column_list sampleTable, ∃ vs,
        getCol (trim_to_cutoff_voltage sampleTable (18/10)) name = some vs ∧
        ∀ v ∈ vs, 18/10 ≤ v) ∧
     List.Sublist (trim_to_cutoff_voltage sampleTable (18/10)).index
       sampleTable.index ∧
     (∀ q ∈ sampleTable.cols, ∃ vs',
        ((q.1, vs') ∈ (trim_to_cutoff_voltage sampleTable (18/10)).cols ∧
         List.Sublist vs' q.2))) := by
  have hWF : sampleTable.WF := by decide
  exact ⟨hWF, C3_amended sampleTable (18/10) hWF⟩

/-! Lemmas about the nearest-neighbour lookup. -/

lemma minQ_mem : ∀ (xs : List ℚ), xs ≠ [] → minQ xs ∈ xs := by
  intro xs
  induction xs with
  | nil => intro h; exact absurd rfl h
  | cons x xs ih =>
      intro _
      cases xs with
      | nil => simp [minQ]
      | cons y ys =>
          show min x (minQ (y :: ys)) ∈ x :: y :: ys
          rcases min_cases x (minQ (y :: ys)) with ⟨h, _⟩ | ⟨h, _⟩
          · rw [h]; simp
          · rw [h]
            exact List.mem_cons_of_mem x (ih (by simp))

lemma minQ_le : ∀ (xs : List ℚ), ∀ v ∈ xs, minQ xs ≤ v := by
  intro xs
  induction xs with
  | nil => intro v hv; cases hv
  | cons x xs ih =>
      intro v hv
      cases xs with
      | nil =>
          rcases List.mem_cons.mp hv with rfl | h
          · exact le_refl _
          · cases h
      | cons y ys =>
          show min x (minQ (y :: ys)) ≤ v
          rcases List.mem_cons.mp hv with rfl | h
          · exact min_le_left _ _
          · exact le_trans (min_le_right _ _) (ih v h)

lemma findIdx_spec (p : α → Bool) :
    ∀ (L : List α), (∃ v ∈ L, p v = true) →
      ∃ w, L.get? (L.findIdx p) = some w ∧ p w = true ∧
        ∀ j u, j < L.findIdx p → L.get? j = some u → p u = false := by
  intro L
  induction L with
  | nil => rintro ⟨v, hv, _⟩; cases hv
  | cons x L ih =>
      rintro ⟨v, hv, hpv⟩
      rw [List.findIdx_cons]
      cases hx : p x with
      | true =>
          refine ⟨x, by simp, hx, ?_⟩
          intro j u hj _
          simp at hj
      | false =>
          have hvL : ∃ v ∈ L, p v = true := by
            rcases List.mem_cons.mp hv with rfl | h
            · rw [hx] at hpv; cases hpv
            · exact ⟨v, h, hpv⟩
          rcases ih hvL with ⟨w, hw, hpw, hfirst⟩
          refine ⟨w, by simpa using hw, hpw, ?_⟩
          intro j u hj hget
          cases j with
          | zero =>
              simp only [List.get?] at hget
              injection hget with hu
              rw [← hu]
              exact hx
          | succ j =>
              simp only [Bool.cond_false] at hj
              exact hfirst j u (by omega) (by simpa using hget)

lemma npArgmin_spec (xs : List ℚ) (hne : xs ≠ []) :
    ∃ m, xs.get? (npArgmin xs) = some m ∧ (∀ v ∈ xs, m ≤ v) ∧
      ∀ j u, j < npArgmin xs → xs.get? j = some u → m < u := by
  have hex : ∃ v ∈ xs, decide (v = minQ xs) = true :=
    ⟨minQ xs, minQ_mem xs hne, by simp⟩
  rcases findIdx_spec _ xs hex with ⟨w, hw, hpw, hfirst⟩
  have hw' : w = minQ xs := of_decide_eq_true hpw
  refine ⟨w, hw, ?_, ?_⟩
  · intro u hu
    rw [hw']
    exact minQ_le xs u hu
  · intro j u hj hget
    have hneq : u ≠ minQ xs := by simpa using hfirst j u hj hget
    have hle : minQ xs ≤ u := minQ_le xs u (List.get?_mem hget)
    rw [hw']
    exact lt_of_le_of_ne hle (Ne.symm hneq)

/-- C5: for a non-empty reference table, `soc_from_lut` returns the SOC of
the row whose reference voltage has minimum absolute difference to the
queried voltage, ties resolved by lowest row index; in particular, querying
with a voltage equal to a row's reference voltage (and to no earlier row's)
returns that row's SOC exactly. -/
theorem C5_soc_from_lut_nearest (R : Table) (v : ℚ) (n0 n1 : String)
    (vs ss : List ℚ) (h0 : R.cols.get? 0 = some (n0, vs))
    (h1 : R.cols.get? 1 = some (n1, ss)) (hne : vs ≠ [])
    (hlen : ss.length = vs.length) :
    (∃ k w s, vs.get? k = some w ∧ ss.get? k = some s ∧
      soc_from_lut R v = .ok s ∧
      (∀ u ∈ vs, |w - v| ≤ |u - v|) ∧
      (∀ j u, j < k → vs.get? j = some u → |w - v| < |u - v|)) ∧
    (∀ i w, vs.get? i = some w → w = v →
      (∀ j u, j < i → vs.get? j = some u → u ≠ v) →
      ∃ s, ss.get? i = some s ∧ soc_from_lut R v = .ok s) := by
  set dists : List ℚ := vs.map (fun x => |x - v|) with hdists
  have hdne : dists ≠ [] := by
    rw [hdists]
    intro h
    exact hne (List.map_eq_nil.mp h)
  set k := npArgmin dists with hk
  rcases npArgmin_spec dists hdne with ⟨m, hm, hmin, hfirst⟩
  have hklt : k < dists.length := by
    rcases List.get?_eq_some.mp hm with ⟨h, _⟩
    exact h
  have hkvs : k < vs.length := by
    rw [hdists] at hklt
    simpa using hklt
  obtain ⟨w, hw, hwm⟩ : ∃ w, vs.get? k = some w ∧ |w - v| = m := by
    have : dists.get? k = (vs.get? k).map (fun x => |x - v|) := by
      rw [hdists]; exact List.get?_map _ _ _
    rw [this] at hm
    rcases Option.map_eq_some'.mp hm with ⟨w, hw, hwm⟩
    exact ⟨w, hw, hwm⟩
  obtain ⟨s, hs⟩ : ∃ s, ss.get? k = some s := by
    have hkss : k < ss.length := by rw [hlen]; exact hkvs
    rw [List.get?_eq_get hkss]
    exact ⟨_, rfl⟩
  have hrun : soc_from_lut R v = .ok s := by
    unfold soc_from_lut
    rw [h0]
    obtain ⟨a, vs', rfl⟩ : ∃ a vs', vs = a :: vs' := by
      cases vs with
      | nil => exact absurd rfl hne
      | cons a l => exact ⟨a, l, rfl⟩
    rw [h1]
    simp only [← hdists, ← hk]
    rw [hdists]
    simp only [List.map_cons]
    rw [hs]
  have hminvs : ∀ u ∈ vs, |w - v| ≤ |u - v| := by
    intro u hu
    rw [hwm]
    exact hmin _ (by rw [hdists]; exact List.mem_map_of_mem _ hu)
  have hfirstvs : ∀ j u, j < k → vs.get? j = some u → |w - v| < |u - v| := by
    intro j u hj hget
    rw [hwm]
    apply hfirst j _ hj
    rw [hdists, List.get?_map, hget]
    rfl
  constructor
  · exact ⟨k, w, s, hw, hs, hrun, hminvs, hfirstvs⟩
  · intro i w' hget' hw'v hearly
    have hile : k ≤ i := by
      by_contra h
      push_neg at h
      have := hfirstvs i w' h hget'
      have h0le : (0:ℚ) ≤ |w - v| := abs_nonneg _
      rw [hw'v, sub_self, abs_zero] at this
      have := lt_of_le_of_lt h0le this
      exact lt_irrefl _ this
    have hwv : w = v := by
      have h1le : |w - v| ≤ |w' - v| := by
        apply hminvs
        exact List.get?_mem hget'
      rw [hw'v, sub_self, abs_zero] at h1le
      have h2 : (0:ℚ) ≤ |w - v| := abs_nonneg _
      have : |w - v| = 0 := le_antisymm h1le h2
      have := abs_eq_zero.mp this
      linarith [sub_eq_zero.mp this]
    have hki : k = i := by
      rcases Nat.lt_or_ge k i with hlt | hge
      · exact absurd hwv (hearly k w hlt hw)
      · omega
    rw [← hki]
    exact ⟨s, hs, hrun⟩

theorem C5_witness :
    sampleRef.cols.get? 0 = some ("Aux_Voltage_1(V)(REF)", [2, 19/10, 17/10]) ∧
    sampleRef.cols.get? 1 = some ("SOC_Ref", [100, 50, 0]) ∧
    ([2, 19/10, 17/10] : List ℚ) ≠ [] ∧
    ([100, 50, 0] : List ℚ).length = ([2, 19/10, 17/10] : List ℚ).length ∧
    ((∃ k w s, ([2, 19/10, 17/10] : List ℚ).get? k = some w ∧
      ([100, 50, 0] : List ℚ).get? k = some s ∧
      soc_from_lut sampleRef (37/20) = .ok s ∧
      (∀ u ∈ ([2, 19/10, 17/10] : List ℚ), |w - 37/20| ≤ |u - 37/20|) ∧
      (∀ j u, j < k → ([2, 19/10, 17/10] : List ℚ).get? j = some u →
        |w - 37/20| < |u - 37/20|)) ∧
    (∀ i w, ([2, 19/10, 17/10] : List ℚ).get? i = some w → w = 37/20 →
      (∀ j u, j < i → ([2, 19/10, 17/10] : List ℚ).get? j = some u →
        u ≠ 37/20) →
      ∃ s, ([100, 50, 0] : List ℚ).get? i = some s ∧
        soc_from_lut sampleRef (37/20) = .ok s)) :=
  ⟨rfl, rfl, by simp, rfl,
    C5_soc_from_lut_nearest sampleRef (37/20) _ _ _ _ rfl rfl (by simp) rfl⟩

/-! Lemmas about rounding and the SOC ramp. -/

lemma floor_le_rhe (x : ℚ) : ⌊x⌋ ≤ rhe x := by
  unfold rhe
  split_ifs <;> omega

lemma rhe_le_floor_add_one (x : ℚ) : rhe x ≤ ⌊x⌋ + 1 := by
  unfold rhe
  split_ifs <;> omega

lemma rhe_mono {x y : ℚ} (h : x ≤ y) : rhe x ≤ rhe y := by
  have hf : ⌊x⌋ ≤ ⌊y⌋ := Int.floor_le_floor h
  rcases lt_or_eq_of_le hf with hlt | heq
  · calc rhe x ≤ ⌊x⌋ + 1 := rhe_le_floor_add_one x
      _ ≤ ⌊y⌋ := by omega
      _ ≤ rhe y := floor_le_rhe y
  · unfold rhe
    rw [← heq]
    split_ifs <;> first | omega | (exfalso; linarith)

lemma round3_mono {x y : ℚ} (h : x ≤ y) : round3 x ≤ round3 y := by
  unfold round3
  rw [div_le_div_iff_of_pos_right (by norm_num : (0:ℚ) < 1000)]
  exact_mod_cast rhe_mono (by linarith)

lemma bindE_ok {α β : Type} (a : α) (f : α → Except Err β) :
    (Except.ok a : Except Err α) >>= f = f a := rfl

lemma bindE_err {α β : Type} (e : Err) (f : α → Except Err β) :
    (Except.error e : Except Err α) >>= f = (Except.error e : Except Err β) := rfl

/-- Destructuring a successful `get_SOC_reference` call. -/
lemma get_SOC_reference_ok {t r : Table} (h : get_SOC_reference t = .ok r) :
    ∃ tt sc vs, calculate_testtime t = .ok tt ∧
      get_smallest_voltage_cell t = .ok sc ∧ getCol t sc = some vs ∧
      r = ⟨tt, true,
        [(sc ++ "(REF)", vs), ("SOC_Ref", socColumn t.index.length)]⟩ := by
  unfold get_SOC_reference at h
  cases h1 : calculate_testtime t with
  | error e => rw [h1] at h; rw [bindE_err] at h; exact (Except.noConfusion h)
  | ok tt =>
      rw [h1, bindE_ok] at h
      cases h2 : get_smallest_voltage_cell t with
      | error e =>
          rw [h2] at h; rw [bindE_err] at h; exact (Except.noConfusion h)
      | ok sc =>
          rw [h2, bindE_ok] at h
          cases h3 : colGet t sc with
          | error e =>
              rw [h3] at h; rw [bindE_err] at h; exact (Except.noConfusion h)
          | ok vs =>
              rw [h3, bindE_ok] at h
              simp only [pure, Except.pure] at h
              injection h with h
              have h3' : getCol t sc = some vs := by
                unfold colGet at h3
                cases hg : getCol t sc with
                | none => rw [hg] at h3; cases h3
                | some vs' =>
                    rw [hg] at h3
                    injection h3 with h3
                    rw [h3]
              exact ⟨tt, sc, vs, rfl, rfl, h3', h.symm⟩

lemma socColumn_get (n i : Nat) (hi : i < n) :
    (socColumn n).get? i =
      some (round3 (100 - 100 * (i:ℚ) / ((n:ℚ) - 1))) := by
  simp only [socColumn, List.get?_eq_getElem?, List.getElem?_map,
    List.getElem?_range hi, Option.map_some']

lemma round3_100 : round3 100 = 100 := by norm_num [round3, rhe]

lemma round3_0 : round3 0 = 0 := by norm_num [round3, rhe]

/-- C4 fails as stated: on the non-empty 1-row table `oneRowTable`,
`get_SOC_reference` succeeds and its SOC column is `[100]` (numpy's
`linspace(100, 0, 1)` is `[100]`), so the SOC at the last row is 100, not 0. -/
theorem C4_counterexample :
    oneRowTable.index ≠ [] ∧
    get_SOC_reference oneRowTable =
      .ok ⟨[0], true, [("Aux_Voltage_1(V)(REF)", [2]), ("SOC_Ref", [100])]⟩ ∧
    ([100] : List ℚ).getLast? = some 100 ∧ (100 : ℚ) ≠ 0 := by
  refine ⟨by simp [oneRowTable], ?_, by simp, by norm_num⟩
  have htt : calculate_testtime oneRowTable = .ok [0] := by
    have hct : getCol oneRowTable "Test_Time(s)" = some [0] := rfl
    simp only [calculate_testtime, colGet, hct, bind, Except.bind]
    have hsg : seriesGet oneRowTable.index oneRowTable.intIndexed [0] 0 =
        .ok 0 := by
      norm_num [seriesGet, oneRowTable, List.get?]
    rw [hsg]
    norm_num [pure, Except.pure]
  have hgv : get_smallest_voltage_cell oneRowTable = .ok "Aux_Voltage_1(V)" := by
    unfold get_smallest_voltage_cell
    rw [(by decide : get_voltage_column_list oneRowTable = ["Aux_Voltage_1(V)"])]
    have hlv : lastVal oneRowTable "Aux_Voltage_1(V)" = .ok 2 := by
      have hcv : getCol oneRowTable "Aux_Voltage_1(V)" = some [2] := rfl
      simp only [lastVal, colGet, hcv, bind, Except.bind]
      have : seriesGet oneRowTable.index oneRowTable.intIndexed [2] (-1) =
          .ok 2 := by
        norm_num [seriesGet, oneRowTable, List.get?, Int.toNat_ofNat]
      rw [this]
    norm_num [smallestLoop, hlv, bind, Except.bind]
  unfold get_SOC_reference
  have hcg : colGet oneRowTable "Aux_Voltage_1(V)" = Except.ok [2] := rfl
  rw [htt, bindE_ok, hgv, bindE_ok, hcg, bindE_ok]
  have hsoc : socColumn oneRowTable.index.length = [100] := by
    norm_num [socColumn, oneRowTable, List.range_succ, round3, rhe]
  rw [hsoc]
  rfl

/-- C4 (amended): whenever `get_SOC_reference` succeeds on a table with at
least two rows, its second column is the SOC ramp, whose value at row i of n
rows is `round3 (100 - 100*i/(n-1))`; it is 100.000 at the first row, 0.000
at the last row, and monotonically non-increasing across rows.  (With exactly
one row the column is `[100]` and the last-row value is 100, not 0.) -/
theorem C4_SOC_reference_ramp (t r : Table) (h : get_SOC_reference t = .ok r)
    (h2 : 2 ≤ t.index.length) :
    r.cols.get? 1 = some ("SOC_Ref", socColumn t.index.length) ∧
    (socColumn t.index.length).head? = some 100 ∧
    (socColumn t.index.length).getLast? = some 0 ∧
    (socColumn t.index.length).Chain' (· ≥ ·) ∧
    ∀ i < t.index.length, (socColumn t.index.length).get? i =
      some (round3 (100 - 100 * (i : ℚ) / ((t.index.length : ℚ) - 1))) := by
  set n := t.index.length with hn
  have hcast : (2:ℚ) ≤ (n:ℚ) := by exact_mod_cast h2
  have hne1 : ((n:ℚ) - 1) ≠ 0 := by linarith
  refine ⟨?_, ?_, ?_, ?_, ?_⟩
  · rcases get_SOC_reference_ok h with ⟨tt, sc, vs, _, _, _, rfl⟩
    rfl
  · have h0 : (socColumn n).get? 0 =
        some (round3 (100 - 100 * (0:ℚ) / ((n:ℚ)-1))) :=
      socColumn_get n 0 (by omega)
    rw [← List.get?_zero, h0]
    norm_num [round3_100]
  · rw [List.getLast?_eq_get?]
    have hlen : (socColumn n).length = n := by simp [socColumn]
    rw [hlen]
    have hl : (socColumn n).get? (n-1) =
        some (round3 (100 - 100 * ((n-1 : ℕ):ℚ) / ((n:ℚ)-1))) :=
      socColumn_get n (n-1) (by omega)
    rw [hl]
    have hval : (100:ℚ) - 100 * ((n-1:ℕ):ℚ) / ((n:ℚ)-1) = 0 := by
      have hc : ((n-1:ℕ):ℚ) = (n:ℚ) - 1 := by
        push_cast [Nat.cast_sub (by omega : 1 ≤ n)]
        ring
      rw [hc, mul_div_assoc, div_self hne1]
      ring
    rw [hval, round3_0]
  · unfold socColumn
    rw [List.chain'_map]
    obtain ⟨m, hm⟩ : ∃ m, n = m + 1 := ⟨n - 1, by omega⟩
    rw [hm, List.chain'_range_succ]
    intro i hi
    apply round3_mono
    have hpos : (0:ℚ) < ((m+1:ℕ):ℚ) - 1 := by
      have : (2:ℚ) ≤ ((m+1:ℕ):ℚ) := by rw [← hm]; exact_mod_cast h2
      push_cast at this ⊢
      linarith
    have hdiv : 100 * (i:ℚ) / (((m+1:ℕ):ℚ) - 1) ≤
        100 * ((i+1:ℕ):ℚ) / (((m+1:ℕ):ℚ) - 1) := by
      rw [div_le_div_iff_of_pos_right hpos]
      push_cast
      linarith
    push_cast at hdiv ⊢
    linarith
  · intro i hi
    exact socColumn_get n i hi

theorem C4_witness :
    get_SOC_reference sampleTable = .ok sampleRef ∧
    2 ≤ sampleTable.index.length ∧
    (sampleRef.cols.get? 1 =
        some ("SOC_Ref", socColumn sampleTable.index.length) ∧
      (socColumn sampleTable.index.length).head? = some 100 ∧
      (socColumn sampleTable.index.length).getLast? = some 0 ∧
      (socColumn sampleTable.index.length).Chain' (· ≥ ·) ∧
      ∀ i < sampleTable.index.length, (socColumn sampleTable.index.length).get? i =
        some (round3 (100 - 100 * (i : ℚ) /
          ((sampleTable.index.length : ℚ) - 1)))) :=
  ⟨ev_ref, by decide,
    C4_SOC_reference_ramp sampleTable sampleRef ev_ref (by decide)⟩

/-! Lemmas for the reference-cell round trip. -/

lemma mapME_ok_get {α β : Type} {f : α → Except Err β} :
    ∀ {L : List α} {ys : List β}, mapME f L = .ok ys →
      ∀ i x, L.get? i = some x → ∃ y, ys.get? i = some y ∧ f x = .ok y := by
  intro L
  induction L with
  | nil => intro ys _ i x hx; simp [List.get?] at hx
  | cons a L ih =>
      intro ys hrun i x hx
      unfold mapME at hrun
      cases hfa : f a with
      | error e => rw [hfa, bindE_err] at hrun; exact (Except.noConfusion hrun)
      | ok y =>
          rw [hfa, bindE_ok] at hrun
          cases hms : mapME f L with
          | error e =>
              rw [hms, bindE_err] at hrun; exact (Except.noConfusion hrun)
          | ok ys' =>
              rw [hms, bindE_ok] at hrun
              simp only [pure, Except.pure] at hrun
              injection hrun with hys
              subst hys
              cases i with
              | zero =>
                  simp only [List.get?] at hx ⊢
                  injection hx with hx
                  exact ⟨y, rfl, by rw [← hx]; exact hfa⟩
              | succ i =>
                  simp only [List.get?] at hx ⊢
                  exact ih hms i x hx

lemma socColumn_last (n : Nat) (h2 : 2 ≤ n) :
    (socColumn n).get? (n-1) = some 0 := by
  rw [socColumn_get n (n-1) (by omega)]
  congr 1
  have hcast : (2:ℚ) ≤ (n:ℚ) := by exact_mod_cast h2
  have hne1 : ((n:ℚ) - 1) ≠ 0 := by linarith
  have hval : (100:ℚ) - 100 * ((n-1:ℕ):ℚ) / ((n:ℚ)-1) = 0 := by
    have hc : ((n-1:ℕ):ℚ) = (n:ℚ) - 1 := by
      push_cast [Nat.cast_sub (by omega : 1 ≤ n)]
      ring
    rw [hc, mul_div_assoc, div_self hne1]
    ring
  rw [hval, round3_0]

lemma soc_from_lut_strict_last (R : Table) (nm nm' : String)
    (vs socs : List ℚ) (s : ℚ)
    (h0 : R.cols.get? 0 = some (nm, vs)) (h1 : R.cols.get? 1 = some (nm', socs))
    (hdec : vs.Pairwise (· > ·)) (hne : vs ≠ [])
    (hs : socs.get? (vs.length - 1) = some s) :
    soc_from_lut R (vs.getLastD 0) = .ok s := by
  set w := vs.getLastD 0 with hw
  set dists : List ℚ := vs.map (fun x => |x - w|) with hdists
  have hvlast : vs.get? (vs.length - 1) = some w := by
    obtain ⟨x, hx⟩ : ∃ x, vs.getLast? = some x :=
      Option.isSome_iff_exists.mp (List.getLast?_isSome.mpr hne)
    rw [← List.getLast?_eq_get?, hx, hw, List.getLastD_eq_getLast?, hx]
    rfl
  have hdlen : dists.length = vs.length := by rw [hdists]; simp
  have hdlast : dists.get? (vs.length - 1) = some 0 := by
    rw [hdists, List.get?_map, hvlast]
    simp
  have hdpos : ∀ j u, j < vs.length - 1 → dists.get? j = some u → 0 < u := by
    intro j u hj hget
    rw [hdists, List.get?_map] at hget
    cases hvj : vs.get? j with
    | none => rw [hvj] at hget; cases hget
    | some vj =>
        rw [hvj] at hget
        simp only [Option.map_some'] at hget
        injection hget with hu
        have hjlt : j < vs.length := by omega
        have hlast : vs.length - 1 < vs.length := by
          cases vs with
          | nil => exact absurd rfl hne
          | cons a l => simp
        have hgt : vs.get ⟨j, hjlt⟩ > vs.get ⟨vs.length - 1, hlast⟩ := by
          rw [List.pairwise_iff_get] at hdec
          exact hdec ⟨j, hjlt⟩ ⟨vs.length - 1, hlast⟩ (by
            simp only [Fin.mk_lt_mk]
            omega)
        have hvj' : vs.get ⟨j, hjlt⟩ = vj := by
          rw [List.get?_eq_get hjlt] at hvj
          injection hvj
        have hw' : vs.get ⟨vs.length - 1, hlast⟩ = w := by
          rw [List.get?_eq_get hlast] at hvlast
          injection hvlast
        rw [← hu]
        rw [hvj', hw'] at hgt
        rw [abs_of_pos (by linarith)]
        linarith
  have hdne : dists ≠ [] := by
    rw [hdists]
    intro hnil
    exact hne (List.map_eq_nil.mp hnil)
  have hargmin : npArgmin dists = vs.length - 1 := by
    rcases npArgmin_spec dists hdne with ⟨m, hm, hmin, hfirst⟩
    have hm0 : m = 0 := by
      have hle : m ≤ 0 := hmin 0 (List.get?_mem hdlast)
      have hge : 0 ≤ m := by
        have hmem := List.get?_mem hm
        rw [hdists] at hmem
        rcases List.mem_map.mp hmem with ⟨u, _, hum⟩
        rw [← hum]
        exact abs_nonneg _
      linarith
    have hklt : npArgmin dists < dists.length := by
      rcases List.get?_eq_some.mp hm with ⟨hk, _⟩
      exact hk
    rcases Nat.lt_trichotomy (npArgmin dists) (vs.length - 1) with hlt | heq | hgt
    · exfalso
      have := hdpos (npArgmin dists) m hlt hm
      linarith
    · exact heq
    · exfalso
      have := hfirst (vs.length - 1) 0 hgt hdlast
      linarith
  unfold soc_from_lut
  rw [h0]
  obtain ⟨a, vs', rfl⟩ : ∃ a vs', vs = a :: vs' := by
    cases vs with
    | nil => exact absurd rfl hne
    | cons a l => exact ⟨a, l, rfl⟩
  rw [h1]
  simp only [← hdists]
  rw [hdists]
  simp only [List.map_cons]
  have hfold : (|a - w| :: List.map (fun x => |x - w|) vs') = dists := by
    rw [hdists]
    simp [List.map_cons]
  rw [hfold, hargmin, hs]

lemma ev_or_cap : get_smallest_cap_cell oneRowTable = .ok 0 := by
  have hc1 : colGet oneRowTable "Current(A)" = .ok [-1] := rfl
  have hc2 : colGet oneRowTable "Test_Time(s)" = .ok [0] := rfl
  unfold get_smallest_cap_cell
  rw [hc1, bindE_ok, hc2, bindE_ok]
  norm_num [trapz, pure, Except.pure]

lemma ev_or_lastV : lastVal oneRowTable "Aux_Voltage_1(V)" = .ok 2 := by
  have hcv : colGet oneRowTable "Aux_Voltage_1(V)" = .ok [2] := rfl
  unfold lastVal
  rw [hcv, bindE_ok]
  norm_num [seriesGet, oneRowTable, List.get?, Int.toNat_ofNat]

lemma ev_or_gsvc :
    get_smallest_voltage_cell oneRowTable = .ok "Aux_Voltage_1(V)" := by
  unfold get_smallest_voltage_cell
  rw [(by decide : get_voltage_column_list oneRowTable = ["Aux_Voltage_1(V)"])]
  norm_num [smallestLoop, ev_or_lastV, bind, Except.bind]

lemma ev_or_tt : calculate_testtime oneRowTable = .ok [0] := by
  have hct : colGet oneRowTable "Test_Time(s)" = .ok [0] := rfl
  unfold calculate_testtime
  rw [hct, bindE_ok]
  have hsg : seriesGet oneRowTable.index oneRowTable.intIndexed [0] 0 =
      .ok 0 := by
    norm_num [seriesGet, oneRowTable, List.get?]
  rw [hsg, bindE_ok]
  norm_num [pure, Except.pure]

lemma ev_or_ref : get_SOC_reference oneRowTable =
    .ok ⟨[0], true, [("Aux_Voltage_1(V)(REF)", [2]), ("SOC_Ref", [100])]⟩ := by
  unfold get_SOC_reference
  have hcg : colGet oneRowTable "Aux_Voltage_1(V)" = Except.ok [2] := rfl
  rw [ev_or_tt, bindE_ok, ev_or_gsvc, bindE_ok, hcg, bindE_ok]
  have hsoc : socColumn oneRowTable.index.length = [100] := by
    norm_num [socColumn, oneRowTable, List.range_succ, round3, rhe]
  rw [hsoc]
  rfl

lemma ev_or_lut :
    soc_from_lut ⟨[0], true,
      [("Aux_Voltage_1(V)(REF)", [2]), ("SOC_Ref", [100])]⟩ 2 = .ok 100 := by
  unfold soc_from_lut
  norm_num [List.get?, npArgmin, minQ, List.findIdx_cons]

lemma ev_or_final :
    get_final_SOC oneRowTable = .ok [("Cell 1", 100, 0)] := by
  unfold get_final_SOC
  rw [ev_or_ref, bindE_ok, ev_or_cap, bindE_ok]
  rw [(by decide : get_voltage_column_list oneRowTable = ["Aux_Voltage_1(V)"])]
  simp only [mapME]
  rw [ev_or_lastV, bindE_ok]
  rw [ev_or_lut, bindE_ok]
  norm_num [ev_cellId1, pure, Except.pure, bind, Except.bind]

/-- C9 fails as stated: on the 1-row table `oneRowTable` the reference cell's
voltage column [2] is (vacuously) strictly decreasing with all values
distinct, yet `get_final_SOC` assigns the reference cell the SOC 100, not
0.0 (its capacity 0 here coincides with `get_smallest_cap_cell` only because
a 1-point trapezoidal integral is 0). -/
theorem C9_counterexample :
    get_smallest_voltage_cell oneRowTable = .ok "Aux_Voltage_1(V)" ∧
    getCol oneRowTable "Aux_Voltage_1(V)" = some [2] ∧
    ([2] : List ℚ).Chain' (· > ·) ∧
    get_smallest_cap_cell oneRowTable = .ok 0 ∧
    get_final_SOC oneRowTable = .ok [("Cell 1", 100, 0)] ∧
    (100 : ℚ) ≠ 0 :=
  ⟨ev_or_gsvc, rfl, by simp, ev_or_cap, ev_or_final, by norm_num⟩

/-- C9 (amended): on every wellformed table (non-integer index) with at least
two rows whose reference cell's voltage column is strictly decreasing (all
values distinct), `get_final_SOC` assigns the reference cell the SOC 0 and a
capacity exactly equal to `get_smallest_cap_cell` of the same table: the
reference cell round-trips through the lookup to its own endpoint. -/
theorem C9_reference_cell_roundtrip (t : Table) (c : String) (vs : List ℚ)
    (out : List (String × ℚ × ℚ)) (cap : ℚ)
    (hWF : t.WF) (hii : t.intIndexed = false)
    (hgs : get_smallest_voltage_cell t = .ok c)
    (hcol : getCol t c = some vs)
    (hdec : vs.Chain' (· > ·)) (hlen2 : 2 ≤ vs.length)
    (hrun : get_final_SOC t = .ok out)
    (hcap : get_smallest_cap_cell t = .ok cap) :
    ∀ i, (get_voltage_column_list t).get? i = some c →
      out.get? i = some (cellId c, 0, cap) := by
  intro i hi
  have hvne : vs ≠ [] := by
    intro h
    rw [h] at hlen2
    simp at hlen2
  unfold get_final_SOC at hrun
  cases href : get_SOC_reference t with
  | error e => rw [href, bindE_err] at hrun; exact (Except.noConfusion hrun)
  | ok refdf =>
      rw [href, bindE_ok, hcap, bindE_ok] at hrun
      rcases get_SOC_reference_ok href with ⟨tt, sc, vs', h1, h2, h3, hrefdf⟩
      have hsc : sc = c := by
        rw [hgs] at h2
        injection h2 with h2'
        exact h2'.symm
      subst hsc
      have hvs' : vs' = vs := by
        rw [hcol] at h3
        injection h3 with h3'
        exact h3'.symm
      subst hvs'
      have hvslen : vs'.length = t.index.length := by
        rcases getCol_mem hcol with ⟨q, hq, _, hq2⟩
        rw [← hq2]
        exact hWF.2 q hq
      rcases mapME_ok_get hrun i sc hi with ⟨y, hy, hfc⟩
      have hlv : lastVal t sc = .ok (vs'.getLastD 0) :=
        lastVal_pos t sc vs' hii hcol hvne
      have hlut : soc_from_lut refdf (vs'.getLastD 0) = .ok 0 := by
        apply soc_from_lut_strict_last refdf (sc ++ "(REF)") "SOC_Ref" vs'
          (socColumn t.index.length) 0
        · rw [hrefdf]
          rfl
        · rw [hrefdf]
          rfl
        · exact List.chain'_iff_pairwise.mp hdec
        · exact hvne
        · rw [hvslen]
          exact socColumn_last t.index.length (by omega)
      rw [hlv, bindE_ok, hlut, bindE_ok] at hfc
      simp only [pure, Except.pure] at hfc
      injection hfc with hfc
      rw [hy, ← hfc]
      norm_num

theorem C9_witness :
    sampleTable.WF ∧ sampleTable.intIndexed = false ∧
    get_smallest_voltage_cell sampleTable = .ok "Aux_Voltage_1(V)" ∧
    getCol sampleTable "Aux_Voltage_1(V)" = some [2, 19/10, 17/10] ∧
    ([2, 19/10, 17/10] : List ℚ).Chain' (· > ·) ∧
    2 ≤ ([2, 19/10, 17/10] : List ℚ).length ∧
    get_final_SOC sampleTable =
      .ok [("Cell 1", 0, 20/3600 + (20/3600) * 0 / 100),
           ("Cell 2", 50, 20/3600 + (20/3600) * 50 / 100)] ∧
    get_smallest_cap_cell sampleTable = .ok (20/3600) ∧
    (∀ i, (get_voltage_column_list sampleTable).get? i =
        some "Aux_Voltage_1(V)" →
      ([("Cell 1", 0, 20/3600 + (20/3600) * 0 / 100),
        ("Cell 2", 50, 20/3600 + (20/3600) * 50 / 100)] :
          List (String × ℚ × ℚ)).get? i =
        some (cellId "Aux_Voltage_1(V)", 0, 20/3600)) := by
  have hWF : sampleTable.WF := by decide
  have hdec : ([2, 19/10, 17/10] : List ℚ).Chain' (· > ·) := by
    norm_num [List.chain'_cons, List.chain'_singleton]
  refine ⟨hWF, rfl, ev_gsvc, ev_getCol_v1, hdec, by simp, ev_final, ev_cap, ?_⟩
  exact C9_reference_cell_roundtrip sampleTable "Aux_Voltage_1(V)"
    [2, 19/10, 17/10] _ _ hWF rfl ev_gsvc ev_getCol_v1 hdec (by simp)
    ev_final ev_cap
